import Mathlib

/-!
Verification of the tikv-reader codec layer.

The Go source is shallowly embedded: byte slices become `List Nat` (each entry
a byte value), Go strings become `List Char`, machine integers become `Nat`
or `Int` with explicit wrap-around where the source relies on it, and fallible
functions return `Option` or `Except`.  Functions keep the source names.
-/

namespace TikvReader

/-- From pkg/codec/key.go: `const signMask uint64 = 0x8000000000000000`. -/
def signMask : Nat := 0x8000000000000000

/-- From pkg/codec/key.go `EncodeIntToCmpUint`: `uint64(v) ^ signMask`.
`uint64(v)` is the two's-complement reinterpretation, i.e. `v mod 2^64`. -/
def EncodeIntToCmpUint (v : Int) : Nat :=
  (v % (2 ^ 64 : Int)).toNat ^^^ signMask

/-- `binary.BigEndian.PutUint64`: the 8 bytes of `u`, most significant first.
`byte(u >> (56-8*i))` is `u / 2^(56-8*i) % 256`. -/
def putUint64BE (u : Nat) : List Nat :=
  [u / 2 ^ 56 % 256, u / 2 ^ 48 % 256, u / 2 ^ 40 % 256, u / 2 ^ 32 % 256,
   u / 2 ^ 24 % 256, u / 2 ^ 16 % 256, u / 2 ^ 8 % 256, u % 256]

/-- From pkg/codec/key.go `EncodeInt`: appends the 8-byte big-endian
comparable encoding of `v` to `b`. -/
def EncodeInt (b : List Nat) (v : Int) : List Nat :=
  b ++ putUint64BE (EncodeIntToCmpUint v)

/-- The inverse transform used when decoding keys: `int64(u ^ signMask)`,
reinterpreting the result as a signed 64-bit value. -/
def DecodeCmpUintToInt (u : Nat) : Int :=
  let w := u ^^^ signMask
  if w < 2 ^ 63 then (w : Int) else (w : Int) - 2 ^ 64

/-- `binary.BigEndian.Uint64` over the first 8 entries. -/
def beRead8 (bs : List Nat) : Nat :=
  (bs.take 8).foldl (fun acc b => acc * 256 + b) 0

/-- Byte-lexicographic strict order on byte sequences (`bytes.Compare < 0`). -/
def bytesLt : List Nat → List Nat → Bool
  | _, [] => false
  | [], _ :: _ => true
  | a :: as, b :: bs => if a < b then true else if b < a then false else bytesLt as bs

/-- Big-endian base-256 digits of `n`, `w` digits wide (no truncation of the
leading digit; meaningful for `n < 256 ^ w`). -/
def beDigits : Nat → Nat → List Nat
  | 0, _ => []
  | w + 1, n => n / 256 ^ w :: beDigits w (n % 256 ^ w)

/-- Big-endian base-256 digits with each digit reduced mod 256. -/
def beDigitsM : Nat → Nat → List Nat
  | 0, _ => []
  | w + 1, n => n / 256 ^ w % 256 :: beDigitsM w n

theorem xor_two_pow_add {k : Nat} (a : Nat) (h : a < 2 ^ k) :
    a ^^^ 2 ^ k = a + 2 ^ k := by
  apply Nat.eq_of_testBit_eq
  intro i
  have h1 : a + 2 ^ k = 2 ^ k * 1 + a := by omega
  rw [Nat.testBit_xor, h1, Nat.testBit_mul_pow_two_add _ h]
  rcases Nat.lt_trichotomy i k with hik | hik | hik
  · simp [hik, Nat.testBit_two_pow_of_ne (by omega : k ≠ i)]
  · subst hik
    have ha : a.testBit i = false := Nat.testBit_lt_two_pow h
    simp [ha, Nat.testBit_two_pow_self, Nat.lt_irrefl]
  · have hnk : ¬ i < k := by omega
    have hle : (2 : Nat) ^ k ≤ 2 ^ i := Nat.pow_le_pow_right (by omega) (by omega)
    have ha : a.testBit i = false := Nat.testBit_lt_two_pow (by omega)
    have h1' : Nat.testBit 1 (i - k) = false := by
      have : (1 : Nat) = 2 ^ 0 := rfl
      rw [this]
      exact Nat.testBit_two_pow_of_ne (by omega)
    simp [hnk, ha, h1', Nat.testBit_two_pow_of_ne (by omega : k ≠ i)]

/-- For an in-range `i64`, the comparable uint is `v + 2^63` (as a natural). -/
theorem encodeIntToCmpUint_eq (v : Int) (h1 : -(2 ^ 63) ≤ v) (h2 : v < 2 ^ 63) :
    EncodeIntToCmpUint v = (v + 2 ^ 63).toNat := by
  have hmask : signMask = 2 ^ 63 := by norm_num [signMask]
  unfold EncodeIntToCmpUint
  rw [hmask]
  rcases le_or_lt 0 v with hv | hv
  · have hmod : v % (2 ^ 64 : Int) = v := by omega
    rw [hmod]
    have hlt : v.toNat < 2 ^ 63 := by omega
    rw [xor_two_pow_add _ hlt]
    omega
  · have hmod : v % (2 ^ 64 : Int) = v + 2 ^ 64 := by omega
    rw [hmod]
    have hc : (v + 2 ^ 64).toNat = (v + 2 ^ 63).toNat + 2 ^ 63 := by omega
    rw [hc]
    have hclt : (v + 2 ^ 63).toNat < 2 ^ 63 := by omega
    rw [← xor_two_pow_add _ hclt, Nat.xor_assoc, Nat.xor_self, Nat.xor_zero]

theorem encodeIntToCmpUint_lt (v : Int) (h1 : -(2 ^ 63) ≤ v) (h2 : v < 2 ^ 63) :
    EncodeIntToCmpUint v < 2 ^ 64 := by
  rw [encodeIntToCmpUint_eq v h1 h2]; omega

theorem encodeIntToCmpUint_mono (a b : Int) (h1 : -(2 ^ 63) ≤ a) (h2 : a < b)
    (h3 : b < 2 ^ 63) : EncodeIntToCmpUint a < EncodeIntToCmpUint b := by
  rw [encodeIntToCmpUint_eq a h1 (by omega), encodeIntToCmpUint_eq b (by omega) h3]
  omega

theorem bytesLt_beDigits {w m n : Nat} (hmn : m < n) (hn : n < 256 ^ w) :
    bytesLt (beDigits w m) (beDigits w n) = true := by
  induction w generalizing m n with
  | zero => simp at hn; omega
  | succ w ih =>
    have hpow : 0 < 256 ^ w := Nat.pos_pow_of_pos _ (by omega)
    have hq : m / 256 ^ w ≤ n / 256 ^ w := Nat.div_le_div_right (Nat.le_of_lt hmn)
    simp only [beDigits]
    rcases Nat.lt_or_ge (m / 256 ^ w) (n / 256 ^ w) with h | h
    · simp [bytesLt, h]
    · have hq2 : m / 256 ^ w = n / 256 ^ w := Nat.le_antisymm hq h
      have e1 := Nat.div_add_mod m (256 ^ w)
      have e2 := Nat.div_add_mod n (256 ^ w)
      have hm' : m % 256 ^ w < n % 256 ^ w := by
        rw [hq2] at e1
        omega
      have hn' : n % 256 ^ w < 256 ^ w := Nat.mod_lt _ hpow
      have hrec := ih hm' hn'
      simp [bytesLt, hq2, hrec]

theorem beDigitsM_mod_pow (w W n : Nat) (h : w ≤ W) :
    beDigitsM w (n % 256 ^ W) = beDigitsM w n := by
  induction w generalizing W with
  | zero => rfl
  | succ w ih =>
    simp only [beDigitsM]
    congr 1
    · have hW : 256 ^ W = 256 ^ w * 256 ^ (W - w) := by
        rw [← Nat.pow_add]
        congr 1
        omega
      rw [hW, Nat.mod_mul_right_div_self]
      have hdvd : (256 : Nat) ∣ 256 ^ (W - w) := dvd_pow_self 256 (by omega)
      rw [Nat.mod_mod_of_dvd _ hdvd]
    · exact ih W (by omega)

theorem beDigits_eq_beDigitsM (w n : Nat) (h : n < 256 ^ w) :
    beDigits w n = beDigitsM w n := by
  induction w generalizing n with
  | zero => rfl
  | succ w ih =>
    simp only [beDigits, beDigitsM]
    congr 1
    · have hlt : n / 256 ^ w < 256 := by
        rw [Nat.div_lt_iff_lt_mul (Nat.pos_pow_of_pos _ (by omega))]
        have hp : 256 ^ (w + 1) = 256 ^ w * 256 := by rw [Nat.pow_succ]
        omega
      exact (Nat.mod_eq_of_lt hlt).symm
    · have hlt : n % 256 ^ w < 256 ^ w := Nat.mod_lt _ (Nat.pos_pow_of_pos _ (by omega))
      rw [ih _ hlt]
      exact beDigitsM_mod_pow w w n (le_refl w)

theorem putUint64BE_eq_beDigitsM (u : Nat) : putUint64BE u = beDigitsM 8 u := by
  simp only [putUint64BE, beDigitsM]
  norm_num

theorem bytesLt_putUint64BE {m n : Nat} (hmn : m < n) (hn : n < 2 ^ 64) :
    bytesLt (putUint64BE m) (putUint64BE n) = true := by
  have h256 : (256 : Nat) ^ 8 = 2 ^ 64 := by norm_num
  rw [putUint64BE_eq_beDigitsM, putUint64BE_eq_beDigitsM,
    ← beDigits_eq_beDigitsM 8 m (by omega), ← beDigits_eq_beDigitsM 8 n (by omega)]
  exact bytesLt_beDigits hmn (by omega)

/-- C1: for all 64-bit signed integers `a < b`, `EncodeInt`'s 8-byte output for
`a` is strictly below the one for `b` in byte-lexicographic order; `EncodeInt`
appends to its buffer exactly the 8 big-endian bytes of the value's
two's-complement bits XORed with `0x8000000000000000`. -/
theorem encodeInt_order_preserving (a b v : Int) (buf : List Nat)
    (h1 : -(2 ^ 63) ≤ a) (h2 : a < b) (h3 : b < 2 ^ 63) :
    bytesLt (EncodeInt [] a) (EncodeInt [] b) = true
    ∧ EncodeInt buf v = buf ++ putUint64BE (EncodeIntToCmpUint v)
    ∧ (EncodeInt buf v).length = buf.length + 8 := by
  refine ⟨?_, rfl, by simp [EncodeInt, putUint64BE]⟩
  show bytesLt ([] ++ putUint64BE (EncodeIntToCmpUint a))
      ([] ++ putUint64BE (EncodeIntToCmpUint b)) = true
  rw [List.nil_append, List.nil_append]
  exact bytesLt_putUint64BE (encodeIntToCmpUint_mono a b h1 h2 h3)
    (encodeIntToCmpUint_lt b (by omega) h3)

/-- Witness for C1 at `a = -1, b = 1`. -/
theorem encodeInt_order_preserving_witness :
    bytesLt (EncodeInt [] (-1)) (EncodeInt [] 1) = true
    ∧ EncodeInt [7] 5 = [7] ++ putUint64BE (EncodeIntToCmpUint 5)
    ∧ (EncodeInt [7] 5).length = [7].length + 8 :=
  encodeInt_order_preserving (-1) 1 5 [7] (by decide) (by decide) (by decide)

/-! ## Key codec (pkg/codec/key.go)

Go strings are embedded as `List Char`.  The regular expression
`keyPattern = ^t(\d+)(?:_([ri])(\d+))?$` is embedded as the deterministic
matcher `keyPatternMatch`: the pattern is unambiguous, since each digit run
is maximal and the following literal is never a digit. -/

def digitsToNat (ds : List Char) : Nat :=
  ds.foldl (fun acc c => acc * 10 + (c.toNat - 48)) 0

/-- Models `strconv.ParseInt(s, 10, 64)` on the digit runs produced by the
key grammar: non-empty, all digits, value at most `2^63 - 1` (a larger value
makes `ParseInt` return a range error, which the caller propagates). -/
def parseInt64 (ds : List Char) : Option Int :=
  if ds = [] then none
  else if ds.all Char.isDigit then
    if digitsToNat ds < 2 ^ 63 then some (digitsToNat ds) else none
  else none

/-- The regexp `keyPattern`: on a match, yields the TableID digit run and,
when the optional suffix is present, the type marker and its ID digit run. -/
def keyPatternMatch (input : List Char) :
    Option (List Char × Option (Char × List Char)) :=
  match input with
  | 't' :: rest =>
    let tid := rest.takeWhile Char.isDigit
    let rem := rest.dropWhile Char.isDigit
    if tid = [] then none
    else
      match rem with
      | [] => some (tid, none)
      | u :: m :: rest2 =>
        if u = '_' ∧ (m = 'r' ∨ m = 'i') then
          let idDigits := rest2.takeWhile Char.isDigit
          let rem2 := rest2.dropWhile Char.isDigit
          if idDigits = [] ∨ rem2 ≠ [] then none
          else some (tid, some (m, idDigits))
        else none
      | _ => none
  | _ => none

/-- From pkg/codec/key.go `ParseKey`: parses a logical TiDB key string into
its physical TiKV byte form.  The `fmt.Errorf` messages (which interpolate
the input) are abbreviated to fixed strings. -/
def ParseKey (input : List Char) : Except String (List Nat) :=
  if input = ['t'] then Except.ok [0x74]
  else
    match keyPatternMatch input with
    | none => Except.error "invalid key format"
    | some (tidDigits, suffix) =>
      match parseInt64 tidDigits with
      | none => Except.error "invalid table ID"
      | some tableID =>
        let buf := EncodeInt [0x74] tableID
        match suffix with
        | none => Except.ok buf
        | some (m, idDigits) =>
          match parseInt64 idDigits with
          | none => Except.error "invalid ID"
          | some idVal =>
            if m = 'r' then Except.ok (EncodeInt (buf ++ [0x5f, 0x72]) idVal)
            else if m = 'i' then Except.ok (EncodeInt (buf ++ [0x5f, 0x69]) idVal)
            else Except.error "unknown type marker"

/-- `strings.Split(input, "_")` over char lists. -/
def splitUnderscore (l : List Char) : List (List Char) :=
  match l with
  | [] => [[]]
  | c :: rest =>
    let r := splitUnderscore rest
    if c = '_' then [] :: r
    else
      match r with
      | s :: tl => (c :: s) :: tl
      | [] => [[c]]

/-- Modelled from the spec: one self-describing order-preserving integer
datum of the external TiDB `util/codec` library (the library is not part of
this repository).  The spec's examples pin the layout: flag byte `0x03`
followed by the 8-byte comparable big-endian encoding.  Integer datums are
the only kind the claims exercise. -/
def encodeDatum (d : Int) : List Nat :=
  0x03 :: putUint64BE (EncodeIntToCmpUint d)

/-- Modelled from the spec: the external codec's order-preserving bytes
encoding (groups of 8 bytes zero-padded, marker `0xFF` after a full group,
`0xF7 + len` after the final partial group).  Present only so the
spec-modelled lenient parser has a total branch for non-numeric datum
literals; no claim exercises it. -/
def encodeBytesGroups (fuel : Nat) (bs : List Nat) : List Nat :=
  match fuel with
  | 0 => []
  | fuel + 1 =>
    if 8 ≤ bs.length then bs.take 8 ++ [0xFF] ++ encodeBytesGroups fuel (bs.drop 8)
    else bs ++ List.replicate (8 - bs.length) 0 ++ [0xF7 + bs.length]

/-- Modelled from the spec: a string datum literal, flag byte `0x01` plus the
grouped bytes encoding (ASCII segments only; codepoints are taken bytewise). -/
def encodeStrDatum (s : List Char) : List Nat :=
  0x01 :: encodeBytesGroups (s.length + 1) (s.map Char.toNat)

/-- Modelled from the spec (§4.2, index branch, lenient mode): each further
non-empty segment is a DatumLiteral — integer if fully numeric, otherwise an
opaque string literal — appended through the datum codec; empty segments are
skipped as no-ops. -/
def parseDatumSegs (buf : List Nat) : List (List Char) → List Nat
  | [] => buf
  | seg :: rest =>
    if seg = [] then parseDatumSegs buf rest
    else
      match parseInt64 seg with
      | some v => parseDatumSegs (buf ++ encodeDatum v) rest
      | none => parseDatumSegs (buf ++ encodeStrDatum seg) rest

/-- Modelled from the spec: the segments after the table segment, lenient
mode (§4.2).  A bare trailing separator is preserved as a literal `_` byte;
a marker-only segment is accepted only as the final segment (the repo's
`TestParsePrefix` rejects `t1_r_` and `t1_i_`); a row ID admits no further
segments; index datum segments go through `parseDatumSegs`. -/
def parsePrefixSegs (buf : List Nat) (segs : List (List Char)) :
    Except String (List Nat) :=
  match segs with
  | [] => Except.ok buf
  | [[]] => Except.ok (buf ++ [0x5f])
  | seg1 :: rest =>
    match seg1 with
    | 'r' :: ds =>
      if ds = [] then
        if rest = [] then Except.ok (buf ++ [0x5f, 0x72])
        else Except.error "missing id"
      else
        match parseInt64 ds with
        | none => Except.error "invalid id value"
        | some v =>
          if rest = [] then Except.ok (EncodeInt (buf ++ [0x5f, 0x72]) v)
          else Except.error "unexpected extra segment"
    | 'i' :: ds =>
      if ds = [] then
        if rest = [] then Except.ok (buf ++ [0x5f, 0x69])
        else Except.error "missing id"
      else
        match parseInt64 ds with
        | none => Except.error "invalid id value"
        | some v => Except.ok (parseDatumSegs (EncodeInt (buf ++ [0x5f, 0x69]) v) rest)
    | _ => Except.error "unknown type marker"

/-- Modelled from the spec: `ParsePrefix` (the lenient `parseForScanPrefix`
entry point) is not under src/ — only its tests (`TestParsePrefix`) and its
caller in main.go are — so it is modelled from spec §4.2, lenient mode:
split on `_`, require `t` + digits first, then delegate to
`parsePrefixSegs`. -/
def ParsePrefixSpec (input : List Char) : Except String (List Nat) :=
  match splitUnderscore input with
  | [] => Except.error "invalid table segment"
  | seg0 :: rest =>
    match seg0 with
    | 't' :: ds =>
      match parseInt64 ds with
      | none => Except.error "invalid table segment"
      | some tableID => parsePrefixSegs (EncodeInt [0x74] tableID) rest
    | _ => Except.error "invalid table segment"

/-- C2 (code_bug evidence): the strict entry point `ParseKey` of
pkg/codec/key.go ACCEPTS the bare table key `t132` — the claim, the repo's
own strict `TestParseKey` table (`{"t1", true}`) and the README (`t132 … is
invalid for get`) all require an error — and returns the same bytes the
lenient prefix parser produces, `'t' ++ EncodeInt(132)`. -/
theorem parseKey_strict_vs_prefix_t132 :
    ParseKey "t132".data = Except.ok (EncodeInt [0x74] 132)
    ∧ ParsePrefixSpec "t132".data = Except.ok (EncodeInt [0x74] 132) := by
  exact ⟨rfl, rfl⟩

/-- C3 (code_bug evidence): `keyPattern` admits no datum segments after the
index ID, so `ParseKey` REJECTS `t1_i1_234_567`, whereas the claim and the
repo's own `TestParseKey` table (`{"t1_i1_234_567", false}`) require it to
succeed with the two integer datums appended. -/
theorem parseKey_index_datum_segments_rejected :
    ParseKey "t1_i1_234_567".data = Except.error "invalid key format" := by
  rfl

theorem takeWhile_all {p : Char → Bool} (l : List Char)
    (hl : ∀ c ∈ l, p c = true) : l.takeWhile p = l := by
  induction l with
  | nil => rfl
  | cons c cs ih =>
    have hc : p c = true := hl c (by simp)
    simp only [List.takeWhile_cons, hc, if_true]
    rw [ih (fun d hd => hl d (by simp [hd]))]

theorem dropWhile_all {p : Char → Bool} (l : List Char)
    (hl : ∀ c ∈ l, p c = true) : l.dropWhile p = [] := by
  induction l with
  | nil => rfl
  | cons c cs ih =>
    have hc : p c = true := hl c (by simp)
    simp only [List.dropWhile_cons, hc, if_true]
    exact ih (fun d hd => hl d (by simp [hd]))

theorem takeWhile_append_not {p : Char → Bool} (l : List Char) (c : Char)
    (r : List Char) (hl : ∀ d ∈ l, p d = true) (hc : p c = false) :
    (l ++ c :: r).takeWhile p = l := by
  induction l with
  | nil => simp [List.takeWhile_cons, hc]
  | cons d ds ih =>
    have hd : p d = true := hl d (by simp)
    simp only [List.cons_append, List.takeWhile_cons, hd, if_true]
    rw [ih (fun e he => hl e (by simp [he]))]

theorem dropWhile_append_not {p : Char → Bool} (l : List Char) (c : Char)
    (r : List Char) (hl : ∀ d ∈ l, p d = true) (hc : p c = false) :
    (l ++ c :: r).dropWhile p = c :: r := by
  induction l with
  | nil => simp [List.dropWhile_cons, hc]
  | cons d ds ih =>
    have hd : p d = true := hl d (by simp)
    simp only [List.cons_append, List.dropWhile_cons, hd, if_true]
    exact ih (fun e he => hl e (by simp [he]))

theorem isPrefixOf_append (l r : List Nat) : l.isPrefixOf (l ++ r) = true := by
  induction l with
  | nil => simp [List.isPrefixOf]
  | cons c cs ih => simp [List.isPrefixOf, ih]

theorem parseInt64_digits (ds : List Char) (h0 : ds ≠ [])
    (h1 : ∀ c ∈ ds, c.isDigit = true) (h2 : digitsToNat ds < 2 ^ 63) :
    parseInt64 ds = some (digitsToNat ds) := by
  have hall : ds.all Char.isDigit = true := by
    rw [List.all_eq_true]
    exact h1
  simp [parseInt64, h0, hall, h2]
  omega

theorem keyPatternMatch_table (tds : List Char) (h0 : tds ≠ [])
    (h1 : ∀ c ∈ tds, c.isDigit = true) :
    keyPatternMatch ('t' :: tds) = some (tds, none) := by
  simp only [keyPatternMatch]
  rw [takeWhile_all tds h1, dropWhile_all tds h1]
  simp [h0]

theorem keyPatternMatch_marker (tds mds : List Char) (m : Char)
    (hm : m = 'r' ∨ m = 'i') (h0 : tds ≠ [])
    (h1 : ∀ c ∈ tds, c.isDigit = true) (h2 : mds ≠ [])
    (h3 : ∀ c ∈ mds, c.isDigit = true) :
    keyPatternMatch ('t' :: (tds ++ '_' :: m :: mds)) = some (tds, some (m, mds)) := by
  have hu : Char.isDigit '_' = false := by decide
  simp only [keyPatternMatch]
  rw [takeWhile_append_not tds '_' (m :: mds) h1 hu,
    dropWhile_append_not tds '_' (m :: mds) h1 hu]
  simp [h0, h2, hm, takeWhile_all mds h3, dropWhile_all mds h3]

/-- C9: the physical key for `t{T}` is a byte-prefix of the physical keys for
`t{T}_r{R}` and `t{T}_i{I}`, for all valid (non-empty decimal, in 64-bit
range) T, R, I. -/
theorem parseKey_table_prefix_of_row_and_index (tds rds ids : List Char)
    (ht : tds ≠ []) (htd : ∀ c ∈ tds, c.isDigit = true)
    (htv : digitsToNat tds < 2 ^ 63)
    (hr : rds ≠ []) (hrd : ∀ c ∈ rds, c.isDigit = true)
    (hrv : digitsToNat rds < 2 ^ 63)
    (hi : ids ≠ []) (hid : ∀ c ∈ ids, c.isDigit = true)
    (hiv : digitsToNat ids < 2 ^ 63) :
    ∃ bufT bufR bufI : List Nat,
      ParseKey ('t' :: tds) = Except.ok bufT
      ∧ ParseKey ('t' :: (tds ++ '_' :: 'r' :: rds)) = Except.ok bufR
      ∧ ParseKey ('t' :: (tds ++ '_' :: 'i' :: ids)) = Except.ok bufI
      ∧ bufT.isPrefixOf bufR = true ∧ bufT.isPrefixOf bufI = true := by
  have htne : 't' :: tds ≠ ['t'] := by simp [ht]
  have hpT := keyPatternMatch_table tds ht htd
  have hpR := keyPatternMatch_marker tds rds 'r' (Or.inl rfl) ht htd hr hrd
  have hpI := keyPatternMatch_marker tds ids 'i' (Or.inr rfl) ht htd hi hid
  have hiT := parseInt64_digits tds ht htd htv
  have hiR := parseInt64_digits rds hr hrd hrv
  have hiI := parseInt64_digits ids hi hid hiv
  refine ⟨EncodeInt [0x74] (digitsToNat tds),
    EncodeInt (EncodeInt [0x74] (digitsToNat tds) ++ [0x5f, 0x72]) (digitsToNat rds),
    EncodeInt (EncodeInt [0x74] (digitsToNat tds) ++ [0x5f, 0x69]) (digitsToNat ids),
    ?_, ?_, ?_, ?_, ?_⟩
  · simp [ParseKey, htne, hpT, hiT]
  · have hne : 't' :: (tds ++ '_' :: 'r' :: rds) ≠ ['t'] := by simp
    simp [ParseKey, hne, hpR, hiT, hiR]
  · have hne : 't' :: (tds ++ '_' :: 'i' :: ids) ≠ ['t'] := by simp
    simp [ParseKey, hne, hpI, hiT, hiI]
  · rw [EncodeInt, List.append_assoc]
    exact isPrefixOf_append _ _
  · rw [EncodeInt, List.append_assoc]
    exact isPrefixOf_append _ _

/-- Witness for C9 at T = 1, R = 2, I = 3. -/
theorem parseKey_table_prefix_of_row_and_index_witness :
    ∃ bufT bufR bufI : List Nat,
      ParseKey ('t' :: ['1']) = Except.ok bufT
      ∧ ParseKey ('t' :: (['1'] ++ '_' :: 'r' :: ['2'])) = Except.ok bufR
      ∧ ParseKey ('t' :: (['1'] ++ '_' :: 'i' :: ['3'])) = Except.ok bufI
      ∧ bufT.isPrefixOf bufR = true ∧ bufT.isPrefixOf bufI = true :=
  parseKey_table_prefix_of_row_and_index ['1'] ['2'] ['3']
    (by decide) (by decide) (by decide) (by decide) (by decide) (by decide)
    (by decide) (by decide) (by decide)

/-! ## Value codec (the codec value file)

`hex.EncodeToString` renders each byte as two lowercase hex digits.  The
datum sub-decoder used by `scrapeMemComparable` is the external TiDB
`tidbcodec.Decode` / `tidbcodec.EncodeKey` pair; it is embedded for integer
datums (`decodeOneDatum` / `encodeDatum`), the only kind the spec's claims
exercise; on every other leading flag byte the embedded decoder fails, which
the scanner treats as a one-byte skip exactly like the source does for
undecodable input. -/

def hexDigit (n : Nat) : Char :=
  if n < 10 then Char.ofNat (48 + n) else Char.ofNat (87 + n)

def hexEncode (bs : List Nat) : String :=
  String.mk (bs.foldr (fun b acc => hexDigit (b / 16 % 16) :: hexDigit (b % 16) :: acc) [])

/-- One integer datum: flag `0x03` followed by 8 comparable big-endian bytes
(fails, like `tidbcodec.Decode`, when fewer than 8 bytes follow the flag). -/
def decodeOneDatum (data : List Nat) : Option Int :=
  match data with
  | 3 :: rest => if 8 ≤ rest.length then some (DecodeCmpUintToInt (beRead8 rest)) else none
  | _ => none

/-- The cursor loop of `scrapeMemComparable`, with the remaining buffer in
place of the index `i` (dropping `k` entries is advancing `i` by `k`) and a
structural fuel equal to the initial buffer length, which the loop can never
exhaust since every iteration advances by at least one byte. -/
def scrapeStep : Nat → List Nat → List String
  | 0, _ => []
  | _, [] => []
  | fuel + 1, b :: rest =>
    match decodeOneDatum (b :: rest) with
    | some d =>
      let encoded := encodeDatum d
      if encoded.length ≤ 0 then toString d :: scrapeStep fuel rest
      else toString d :: scrapeStep fuel ((b :: rest).drop encoded.length)
    | none => scrapeStep fuel rest

def scrapeGo (data : List Nat) : List String :=
  scrapeStep data.length data

/-- From the value codec, `scrapeMemComparable`: scans the whole buffer and
reports `found = true` iff at least one datum decoded (the Go nil result is
the empty list). -/
def scrapeMemComparable (data : List Nat) : List String × Bool :=
  let vals := scrapeGo data
  if vals.isEmpty then ([], false) else (vals, true)

def leUint16At (data : List Nat) (i : Nat) : Nat :=
  data.getD i 0 + 256 * data.getD (i + 1) 0

def leUint32At (data : List Nat) (i : Nat) : Nat :=
  data.getD i 0 + 256 * data.getD (i + 1) 0 + 65536 * data.getD (i + 2) 0
    + 16777216 * data.getD (i + 3) 0

/-- The `numSmall` loop of `parseRowV2Structure`: reads `n` one-byte column
ids starting at `cursor`, failing when the cursor reaches the end. -/
def readSmallIDs (data : List Nat) : Nat → Nat → Option (List Int × Nat)
  | cursor, 0 => some ([], cursor)
  | cursor, n + 1 =>
    if data.length ≤ cursor then none
    else
      match readSmallIDs data (cursor + 1) n with
      | some (ds, c2) => some (((data.getD cursor 0 : Nat) : Int) :: ds, c2)
      | none => none

/-- The `numLarge` loop: reads `n` 4-byte little-endian column ids.  The
source's bound check is `cursor+4 >= len(data)` (not `>`), which is kept. -/
def readLargeIDs (data : List Nat) : Nat → Nat → Option (List Int × Nat)
  | cursor, 0 => some ([], cursor)
  | cursor, n + 1 =>
    if data.length ≤ cursor + 4 then none
    else
      match readLargeIDs data (cursor + 4) n with
      | some (ds, c2) => some ((leUint32At data cursor : Int) :: ds, c2)
      | none => none

/-- The offsets loop: reads `n` 2-byte little-endian end offsets (bound check
`cursor+2 > len(data)`). -/
def readOffsets (data : List Nat) : Nat → Nat → Option (List Nat × Nat)
  | cursor, 0 => some ([], cursor)
  | cursor, n + 1 =>
    if data.length < cursor + 2 then none
    else
      match readOffsets data (cursor + 2) n with
      | some (offs, c2) => some (leUint16At data cursor :: offs, c2)
      | none => none

/-- Go slice `data[s:e]` (defined for `s ≤ e ≤ len`). -/
def sliceList (data : List Nat) (s e : Nat) : List Nat :=
  (data.take e).drop s

/-- Go map write `m[k] = v`: replace the binding if the key is present,
otherwise append it. -/
def mapSet : List (Int × List Nat) → Int → List Nat → List (Int × List Nat)
  | [], k, v => [(k, v)]
  | (k2, v2) :: rest, k, v =>
    if k2 = k then (k, v) :: rest else (k2, v2) :: mapSet rest k v

/-- The bounds-checking slice loop of `parseRowV2Structure`, over the
(id, end-offset) pairs with the running `previousOffset`. -/
def buildCols (data : List Nat) (base : Nat) :
    List (Int × Nat) → Nat → List (Int × List Nat) → Option (List (Int × List Nat))
  | [], _, acc => some acc
  | (id, endOff) :: rest, prevOff, acc =>
    if data.length < base + endOff then none
    else if base + endOff < base + prevOff then none
    else buildCols data base rest endOff
      (mapSet acc id (sliceList data (base + prevOff) (base + endOff)))

/-- From the value codec, `parseRowV2Structure`: header `numSmall`/`numLarge`
at bytes 2..6, then the id tables, the offset table and the bounds-checked
value slices.  The Go error values are embedded as `none`. -/
def parseRowV2Structure (data : List Nat) : Option (List (Int × List Nat)) :=
  if data.length < 6 then none
  else
    (readSmallIDs data 6 (leUint16At data 2)).bind fun sp =>
      (readLargeIDs data sp.2 (leUint16At data 4)).bind fun lp =>
        (readOffsets data lp.2 (sp.1 ++ lp.1).length).bind fun op =>
          buildCols data op.2 ((sp.1 ++ lp.1).zip op.1) 0 []

/-! ## Field-value classifier

`trySmartDecode`'s first rule calls `safeDecodeJson`, a recover-guarded
wrapper around the external `types.BinaryJSON` library; that external
decoder is passed in as the parameter `jd` (returning `none` models
`ok = false`).  Go's `%q` (`goQuote`) and float comparison
`float64(control)/float64(len) < 0.1` (embedded as the exact rational test
`10 * control < len`, which agrees with the float computation for every
realizable buffer length) are Go standard-library behaviors embedded here;
`goQuote` passes non-ASCII bytes through one by one. -/

def utf8Valid : List Nat → Bool
  | [] => true
  | c :: rest =>
    if c < 0x80 then utf8Valid rest
    else if c < 0xC2 then false
    else if c ≤ 0xDF then
      match rest with
      | c1 :: rest1 => if 0x80 ≤ c1 ∧ c1 ≤ 0xBF then utf8Valid rest1 else false
      | [] => false
    else if c ≤ 0xEF then
      match rest with
      | c1 :: c2 :: rest2 =>
        if (if c = 0xE0 then 0xA0 else 0x80) ≤ c1
            ∧ c1 ≤ (if c = 0xED then 0x9F else 0xBF)
            ∧ 0x80 ≤ c2 ∧ c2 ≤ 0xBF then
          utf8Valid rest2
        else false
      | _ => false
    else if c ≤ 0xF4 then
      match rest with
      | c1 :: c2 :: c3 :: rest3 =>
        if (if c = 0xF0 then 0x90 else 0x80) ≤ c1
            ∧ c1 ≤ (if c = 0xF4 then 0x8F else 0xBF)
            ∧ 0x80 ≤ c2 ∧ c2 ≤ 0xBF ∧ 0x80 ≤ c3 ∧ c3 ≤ 0xBF then
          utf8Valid rest3
        else false
      | _ => false
    else false

def controlCount (bs : List Nat) : Nat :=
  (bs.filter (fun v => v < 32 ∧ v ≠ 10 ∧ v ≠ 13 ∧ v ≠ 9)).length

/-- From the value codec, `isLooksLikeString`: valid UTF-8 and control-byte
fraction strictly below 0.1. -/
def isLooksLikeString (b : List Nat) : Bool :=
  utf8Valid b ∧ 10 * controlCount b < b.length

def goQuoteChar (b : Nat) : List Char :=
  if b = 34 then ['\\', '"']
  else if b = 92 then ['\\', '\\']
  else if b = 7 then ['\\', 'a']
  else if b = 8 then ['\\', 'b']
  else if b = 9 then ['\\', 't']
  else if b = 10 then ['\\', 'n']
  else if b = 11 then ['\\', 'v']
  else if b = 12 then ['\\', 'f']
  else if b = 13 then ['\\', 'r']
  else if b < 32 ∨ b = 127 then ['\\', 'x', hexDigit (b / 16 % 16), hexDigit (b % 16)]
  else [Char.ofNat b]

/-- Go `%q` of a byte string (`strconv.Quote`), bytewise. -/
def goQuote (bs : List Nat) : String :=
  String.mk ('"' :: bs.foldr (fun b acc => goQuoteChar b ++ acc) ['"'])

/-- The little-endian value of a byte list (`binary.LittleEndian.UintNN`). -/
def leNat (bs : List Nat) : Nat :=
  bs.foldr (fun b acc => b + 256 * acc) 0

/-- The signed reinterpretation `intN(leNat bs)` at width `8 * bs.length`. -/
def leSigned (bs : List Nat) : Int :=
  if leNat bs < 2 ^ (8 * bs.length - 1) then (leNat bs : Int)
  else (leNat bs : Int) - 2 ^ (8 * bs.length)

/-- Rule 2 of `trySmartDecode` (the Go `switch len(b)`): integer candidacy
flag and the formatted little-endian signed value. -/
def intCandidate (b : List Nat) : Bool × String :=
  if b.length = 1 then (true, toString (leSigned b))
  else if b.length = 2 then (true, toString (leSigned b))
  else if b.length = 4 then (true, toString (leSigned b))
  else if b.length = 8 then (true, toString (leSigned b))
  else (false, "")

/-- From the value codec, `trySmartDecode`.  `jd` is the external
`safeDecodeJson` capability (rule 1); it is consulted exactly when the
leading byte is `0x01` or `0x03`. -/
def trySmartDecode (jd : List Nat → Option String) (b : List Nat) : String :=
  if b = [] then "NULL/Empty"
  else
    match (if b.headD 0 = 1 ∨ b.headD 0 = 3 then jd b else none) with
    | some jsonStr => jsonStr
    | none =>
      let c := intCandidate b
      if isLooksLikeString b then
        if c.1 then "Int: " ++ c.2 ++ " Str: " ++ goQuote b
        else goQuote b
      else if c.1 then "Int: " ++ c.2 ++ " (Hex: 0x" ++ hexEncode b ++ ")"
      else if b.length ≤ 8 then "0x" ++ hexEncode b
      else "0x" ++ hexEncode (b.take 8) ++ "... (len=" ++ toString b.length ++ ")"

/-- The `RowV2Data` struct: the Go `map[int64]string` is embedded as a
key-unique association list in insertion order. -/
structure RowV2Data where
  Columns : List (Int × String)
  deriving DecidableEq, Repr

/-- From the value codec, `decodeRowV2`: classifier output per column on a
successful structural parse, the `-1` sentinel with the full hex dump
otherwise. -/
def decodeRowV2 (jd : List Nat → Option String) (val : List Nat) : RowV2Data :=
  match parseRowV2Structure val with
  | some cols => ⟨cols.map (fun p => (p.1, trySmartDecode jd p.2))⟩
  | none => ⟨[(-1, hexEncode val)]⟩

/-- The `DecodedValue` tagged union (`Type` + `Payload`). -/
inductive DecodedValue where
  | null : DecodedValue
  | rowV2 : RowV2Data → DecodedValue
  | index : List String → DecodedValue
  | raw : String → DecodedValue
  deriving DecidableEq, Repr

/-- From the value codec, `DecodeValue`: the top-level dispatcher. -/
def DecodeValue (jd : List Nat → Option String) (value : List Nat) : DecodedValue :=
  if value = [] then DecodedValue.null
  else if value.headD 0 = 0x80 then DecodedValue.rowV2 (decodeRowV2 jd value)
  else if 1 < value.length ∧ value.headD 0 = 0 ∧ value.tail.headD 0 = 0x80 then
    DecodedValue.rowV2 (decodeRowV2 jd value.tail)
  else
    let r := scrapeMemComparable value
    if r.2 then DecodedValue.index r.1 else DecodedValue.raw (hexEncode value)

/-- Modelled from the spec: the index-values step of the reverse key decoder
(§4.2 reverse direction): feed the remaining bytes through the datum scanner
and append each decoded value preceded by `_`; when the scanner finds
nothing in a non-empty remainder, hex-dump the remainder instead. -/
def decodeKeyIndexVals (s : String) (rem : List Nat) : String :=
  let r := scrapeMemComparable rem
  if r.2 then r.1.foldl (fun acc v => acc ++ "_" ++ v) s
  else if rem = [] then s else s ++ hexEncode rem

/-- Modelled from the spec: the suffix step of the reverse key decoder: an
`_r` marker expects an 8-byte row ID (hex-dumping the remainder otherwise),
an `_i` marker expects an 8-byte index ID (emitting the literal `_???`
marker otherwise) followed by scanned datum values; any other trailing
pattern is hex-dumped and appended. -/
def decodeKeyRest (s : String) (rem : List Nat) : String :=
  match rem with
  | [] => s
  | 0x5f :: 0x72 :: rest =>
    if 8 ≤ rest.length then
      let s2 := s ++ "_r" ++ toString (DecodeCmpUintToInt (beRead8 rest))
      if rest.drop 8 = [] then s2 else s2 ++ hexEncode (rest.drop 8)
    else s ++ hexEncode rest
  | 0x5f :: 0x69 :: rest =>
    if 8 ≤ rest.length then
      decodeKeyIndexVals (s ++ "_i" ++ toString (DecodeCmpUintToInt (beRead8 rest)))
        (rest.drop 8)
    else decodeKeyIndexVals (s ++ "_???") rest
  | _ => s ++ hexEncode rem

/-- Modelled from the spec: `DecodeKey` (`decodeKeyToString`) is not under
src/ — only `TestDecodeKey` and the main.go caller are — so it is modelled
from spec §4.2, reverse direction: require a leading `'t'` and at least 8
following bytes (else hex-dump the whole key), decode the table ID, then
handle the `_r` / `_i` suffix. -/
def DecodeKey (key : List Nat) : String :=
  match key with
  | 0x74 :: rest =>
    if 8 ≤ rest.length then
      decodeKeyRest ("t" ++ toString (DecodeCmpUintToInt (beRead8 rest))) (rest.drop 8)
    else hexEncode key
  | _ => hexEncode key

set_option maxRecDepth 4000 in
/-- C6: decoding a physical key back to a string is a left inverse of key
encoding on the two well-formed keys named by the spec: the row key
`t132_r1772018` (as encoded by `ParseKey`) and the index key
`t128_i2_594692_3400463811` (index ID 2 followed by the two
order-preserving-encoded integer datums). -/
theorem decodeKey_round_trip :
    ParseKey "t132_r1772018".data
      = Except.ok (EncodeInt (EncodeInt [0x74] 132 ++ [0x5f, 0x72]) 1772018)
    ∧ DecodeKey (EncodeInt (EncodeInt [0x74] 132 ++ [0x5f, 0x72]) 1772018)
      = "t132_r1772018"
    ∧ DecodeKey (EncodeInt (EncodeInt [0x74] 128 ++ [0x5f, 0x69]) 2
        ++ encodeDatum 594692 ++ encodeDatum 3400463811)
      = "t128_i2_594692_3400463811" := by
  refine ⟨rfl, ?_, ?_⟩ <;> decide

/-- C4: whenever the structural row parse fails (too few header bytes, a
table overrunning the buffer, a non-monotonic offset, or an end offset past
the buffer), `decodeRowV2` still returns — with no error — a row whose only
column is the `-1` sentinel mapped to the hex dump of the whole input; in
particular on the 2-byte input `{0x80, 0xFF}`. -/
theorem decodeRowV2_malformed_sentinel (jd : List Nat → Option String)
    (data : List Nat) (hfail : parseRowV2Structure data = none) :
    decodeRowV2 jd data = ⟨[(-1, hexEncode data)]⟩
    ∧ parseRowV2Structure [0x80, 0xFF] = none
    ∧ decodeRowV2 jd [0x80, 0xFF] = ⟨[(-1, "80ff")]⟩ := by
  refine ⟨?_, rfl, rfl⟩
  simp [decodeRowV2, hfail]

/-- Witness for C4 at the spec's concrete malformed input. -/
theorem decodeRowV2_malformed_sentinel_witness :
    decodeRowV2 (fun _ => none) [0x80, 0xFF] = ⟨[(-1, hexEncode [0x80, 0xFF])]⟩
    ∧ parseRowV2Structure [0x80, 0xFF] = none
    ∧ decodeRowV2 (fun _ => none) [0x80, 0xFF] = ⟨[(-1, "80ff")]⟩ :=
  decodeRowV2_malformed_sentinel (fun _ => none) [0x80, 0xFF] rfl

/-- C5: `DecodeValue` is total by construction and routes deterministically:
empty input to Null; first byte `0x80` to the packed-row decode of the whole
input; a leading `0x00` before `0x80` is stripped, giving the identical
RowV2 result as the unwrapped payload; otherwise the datum scanner decides
between Index and the raw hex fallback. -/
theorem decodeValue_routing_total (jd : List Nat → Option String)
    (v1 v2 v3 v4 : List Nat)
    (h1a : v1 ≠ []) (h1b : v1.headD 0 = 0x80)
    (h3a : v3 ≠ []) (h3b : v3.headD 0 ≠ 0x80)
    (h3c : ¬(1 < v3.length ∧ v3.headD 0 = 0 ∧ v3.tail.headD 0 = 0x80))
    (h3f : (scrapeMemComparable v3).2 = true)
    (h4a : v4 ≠ []) (h4b : v4.headD 0 ≠ 0x80)
    (h4c : ¬(1 < v4.length ∧ v4.headD 0 = 0 ∧ v4.tail.headD 0 = 0x80))
    (h4f : (scrapeMemComparable v4).2 = false) :
    DecodeValue jd [] = DecodedValue.null
    ∧ DecodeValue jd v1 = DecodedValue.rowV2 (decodeRowV2 jd v1)
    ∧ DecodeValue jd (0 :: 0x80 :: v2) = DecodedValue.rowV2 (decodeRowV2 jd (0x80 :: v2))
    ∧ DecodeValue jd (0 :: 0x80 :: v2) = DecodeValue jd (0x80 :: v2)
    ∧ DecodeValue jd v3 = DecodedValue.index (scrapeMemComparable v3).1
    ∧ DecodeValue jd v4 = DecodedValue.raw (hexEncode v4) := by
  refine ⟨rfl, ?_, ?_, ?_, ?_, ?_⟩
  · unfold DecodeValue
    rw [if_neg h1a, if_pos h1b]
  · simp [DecodeValue]
  · simp [DecodeValue]
  · unfold DecodeValue
    rw [if_neg h3a, if_neg h3b, if_neg h3c]
    simp [h3f]
  · unfold DecodeValue
    rw [if_neg h4a, if_neg h4b, if_neg h4c]
    simp [h4f]

/-- Witness for C5: a row value, a wrapped row value, an integer-datum index
value and an unrecognizable value. -/
theorem decodeValue_routing_total_witness :
    DecodeValue (fun _ => none) [] = DecodedValue.null
    ∧ DecodeValue (fun _ => none) [0x80]
      = DecodedValue.rowV2 (decodeRowV2 (fun _ => none) [0x80])
    ∧ DecodeValue (fun _ => none) (0 :: 0x80 :: [])
      = DecodedValue.rowV2 (decodeRowV2 (fun _ => none) (0x80 :: []))
    ∧ DecodeValue (fun _ => none) (0 :: 0x80 :: [])
      = DecodeValue (fun _ => none) (0x80 :: [])
    ∧ DecodeValue (fun _ => none) (encodeDatum 42)
      = DecodedValue.index (scrapeMemComparable (encodeDatum 42)).1
    ∧ DecodeValue (fun _ => none) [0xFF, 0xFF, 0xFF]
      = DecodedValue.raw (hexEncode [0xFF, 0xFF, 0xFF]) :=
  decodeValue_routing_total (fun _ => none) [0x80] [] (encodeDatum 42) [0xFF, 0xFF, 0xFF]
    (by decide) (by decide) (by decide) (by decide) (by decide) (by decide)
    (by decide) (by decide) (by decide) (by decide)

/-- The scanner's per-step advance: the re-encoded length of the decoded
datum, falling back to one byte when re-encoding yields no bytes. -/
def advanceLen (d : Int) : Nat :=
  if (encodeDatum d).length ≤ 0 then 1 else (encodeDatum d).length

/-- The fuel argument of `scrapeStep` is irrelevant once it covers the
buffer length. -/
theorem scrapeStep_fuel (fa : Nat) :
    ∀ (fb : Nat) (l : List Nat), l.length ≤ fa → l.length ≤ fb →
      scrapeStep fa l = scrapeStep fb l := by
  induction fa using Nat.strong_induction_on with
  | _ fa ih =>
    intro fb l ha hb
    cases l with
    | nil => cases fa <;> cases fb <;> rfl
    | cons b rest =>
      cases fa with
      | zero => simp at ha
      | succ fa2 =>
        cases fb with
        | zero => simp at hb
        | succ fb2 =>
          have ha2 : rest.length ≤ fa2 := by simp at ha; omega
          have hb2 : rest.length ≤ fb2 := by simp at hb; omega
          simp only [scrapeStep]
          cases hd : decodeOneDatum (b :: rest) with
          | none => exact ih fa2 (by omega) fb2 rest ha2 hb2
          | some d =>
            simp only []
            split
            · rw [ih fa2 (by omega) fb2 rest ha2 hb2]
            · have hk : 1 ≤ (encodeDatum d).length := by omega
              have hlen : ((b :: rest).drop (encodeDatum d).length).length ≤ rest.length := by
                simp [List.length_drop]
                omega
              rw [ih fa2 (by omega) fb2 ((b :: rest).drop (encodeDatum d).length)
                (by omega) (by omega)]

theorem scrapeStep_succ_cons (fuel : Nat) (b : Nat) (rest : List Nat) :
    scrapeStep (fuel + 1) (b :: rest) =
      match decodeOneDatum (b :: rest) with
      | some d =>
        if (encodeDatum d).length ≤ 0 then toString d :: scrapeStep fuel rest
        else toString d :: scrapeStep fuel ((b :: rest).drop (encodeDatum d).length)
      | none => scrapeStep fuel rest := rfl

theorem scrapeStep_cons_none (fuel : Nat) (b : Nat) (rest : List Nat)
    (h : decodeOneDatum (b :: rest) = none) :
    scrapeStep (fuel + 1) (b :: rest) = scrapeStep fuel rest := by
  rw [scrapeStep_succ_cons, h]

theorem scrapeStep_cons_some (fuel : Nat) (b : Nat) (rest : List Nat) (d : Int)
    (h : decodeOneDatum (b :: rest) = some d) :
    scrapeStep (fuel + 1) (b :: rest)
      = (if (encodeDatum d).length ≤ 0 then toString d :: scrapeStep fuel rest
         else toString d :: scrapeStep fuel ((b :: rest).drop (encodeDatum d).length)) := by
  rw [scrapeStep_succ_cons, h]

theorem scrapeGo_found (data : List Nat) :
    (scrapeMemComparable data).2 = true ↔ (scrapeMemComparable data).1 ≠ [] := by
  unfold scrapeMemComparable
  cases hE : (scrapeGo data).isEmpty with
  | true => simp [hE]
  | false =>
    simp only [hE, Bool.false_eq_true, if_false]
    constructor
    · intro _
      intro hcontra
      rw [hcontra] at hE
      simp at hE
    · intro _
      trivial

/-- C7: `scrapeMemComparable` walks a cursor from offset 0: a failed decode
advances by exactly one byte, a successful decode emits the value and
advances by the re-encoded datum length (one byte if that is empty), and
`found` is true iff at least one datum decoded anywhere; in particular two
garbage bytes before two valid integer datums are skipped and both integers
are decoded in order. -/
theorem scrapeMemComparable_walk (dataA dataB dataC : List Nat) (d : Int)
    (hB : dataB ≠ []) (hBfail : decodeOneDatum dataB = none)
    (hC : decodeOneDatum dataC = some d) :
    ((scrapeMemComparable dataA).2 = true ↔ (scrapeMemComparable dataA).1 ≠ [])
    ∧ scrapeGo dataB = scrapeGo (dataB.drop 1)
    ∧ scrapeGo dataC = toString d :: scrapeGo (dataC.drop (advanceLen d))
    ∧ scrapeMemComparable ([0xAA, 0xBB] ++ encodeDatum 10 ++ encodeDatum 20)
      = (["10", "20"], true) := by
  refine ⟨scrapeGo_found dataA, ?_, ?_, by decide⟩
  · cases dataB with
    | nil => exact absurd rfl hB
    | cons b rest =>
      show scrapeStep (rest.length + 1) (b :: rest) = scrapeGo ((b :: rest).drop 1)
      rw [scrapeStep_cons_none _ _ _ hBfail]
      rfl
  · cases dataC with
    | nil => simp [decodeOneDatum] at hC
    | cons b rest =>
      show scrapeStep (rest.length + 1) (b :: rest)
        = toString d :: scrapeGo ((b :: rest).drop (advanceLen d))
      rw [scrapeStep_cons_some _ _ _ _ hC]
      unfold advanceLen
      by_cases hk : (encodeDatum d).length ≤ 0
      · rw [if_pos hk, if_pos hk]
        rfl
      · rw [if_neg hk, if_neg hk]
        have hlen : ((b :: rest).drop (encodeDatum d).length).length ≤ rest.length := by
          rw [List.length_drop]
          simp only [List.length_cons]
          omega
        rw [scrapeStep_fuel rest.length ((b :: rest).drop (encodeDatum d).length).length
          ((b :: rest).drop (encodeDatum d).length) hlen (le_refl _)]
        rfl

/-- Witness for C7: garbage bytes `0xFF 0xFF` and the integer datum 10. -/
theorem scrapeMemComparable_walk_witness :
    ((scrapeMemComparable [0xFF]).2 = true ↔ (scrapeMemComparable [0xFF]).1 ≠ [])
    ∧ scrapeGo [0xFF, 0xFF] = scrapeGo ([0xFF, 0xFF].drop 1)
    ∧ scrapeGo (encodeDatum 10) = toString (10 : Int)
        :: scrapeGo ((encodeDatum 10).drop (advanceLen 10))
    ∧ scrapeMemComparable ([0xAA, 0xBB] ++ encodeDatum 10 ++ encodeDatum 20)
      = (["10", "20"], true) :=
  scrapeMemComparable_walk [0xFF] [0xFF, 0xFF] (encodeDatum 10) 10
    (by decide) (by decide) (by decide)

/-- C8: a column value of 1, 2, 4 or 8 bytes that passes the string-likeness
test (valid UTF-8, control fraction below 0.10) and is not successfully
decoded as a 0x01/0x03-tagged JSON document classifies as the combined
`Int: x Str: "x"` form; when string-likeness holds without integer candidacy
the quoted string alone is returned. -/
theorem trySmartDecode_string_like (jd : List Nat → Option String) (b c : List Nat)
    (hblen : b.length = 1 ∨ b.length = 2 ∨ b.length = 4 ∨ b.length = 8)
    (hbjson : b.headD 0 = 1 ∨ b.headD 0 = 3 → jd b = none)
    (hbstr : isLooksLikeString b = true)
    (hcne : c ≠ [])
    (hclen : ¬(c.length = 1 ∨ c.length = 2 ∨ c.length = 4 ∨ c.length = 8))
    (hcjson : c.headD 0 = 1 ∨ c.headD 0 = 3 → jd c = none)
    (hcstr : isLooksLikeString c = true) :
    trySmartDecode jd b = "Int: " ++ toString (leSigned b) ++ " Str: " ++ goQuote b
    ∧ trySmartDecode jd c = goQuote c := by
  have hbne : b ≠ [] := by
    intro h
    subst h
    simp at hblen
  have hbj : (if b.headD 0 = 1 ∨ b.headD 0 = 3 then jd b else none) = none := by
    split
    · exact hbjson (by assumption)
    · rfl
  have hcj : (if c.headD 0 = 1 ∨ c.headD 0 = 3 then jd c else none) = none := by
    split
    · exact hcjson (by assumption)
    · rfl
  have hbcand : intCandidate b = (true, toString (leSigned b)) := by
    rcases hblen with h | h | h | h <;> simp [intCandidate, h]
  have hccand : intCandidate c = (false, "") := by
    push_neg at hclen
    simp [intCandidate, hclen.1, hclen.2.1, hclen.2.2.1, hclen.2.2.2]
  constructor
  · unfold trySmartDecode
    rw [if_neg hbne, hbj, hbcand]
    simp [hbstr]
  · unfold trySmartDecode
    rw [if_neg hcne, hcj, hccand]
    simp [hcstr]

/-- Witness for C8: the single byte `A` (combined form) and the three bytes
`ABC` (quoted string alone). -/
theorem trySmartDecode_string_like_witness :
    trySmartDecode (fun _ => none) [65]
      = "Int: " ++ toString (leSigned [65]) ++ " Str: " ++ goQuote [65]
    ∧ trySmartDecode (fun _ => none) [65, 66, 67] = goQuote [65, 66, 67] :=
  trySmartDecode_string_like (fun _ => none) [65] [65, 66, 67]
    (by decide) (by decide) (by decide) (by decide) (by decide) (by decide) (by decide)

theorem readSmallIDs_nonneg (data : List Nat) (n : Nat) :
    ∀ (cursor : Nat) (ds : List Int) (c2 : Nat),
      readSmallIDs data cursor n = some (ds, c2) → ∀ id ∈ ds, 0 ≤ id := by
  induction n with
  | zero =>
    intro cursor ds c2 h
    have h' : some (([] : List Int), cursor) = some (ds, c2) := h
    simp only [Option.some.injEq, Prod.mk.injEq] at h'
    intro id hid
    rw [← h'.1] at hid
    simp at hid
  | succ n ih =>
    intro cursor ds c2 h
    simp only [readSmallIDs] at h
    split at h
    · exact absurd h (by simp)
    · cases hrec : readSmallIDs data (cursor + 1) n with
      | none => rw [hrec] at h; simp at h
      | some p =>
        obtain ⟨ds0, c0⟩ := p
        rw [hrec] at h
        simp at h
        intro id hid
        rw [← h.1] at hid
        rcases List.mem_cons.mp hid with hh | hh
        · subst hh
          exact Int.ofNat_nonneg _
        · exact ih (cursor + 1) ds0 c0 hrec id hh

theorem readLargeIDs_nonneg (data : List Nat) (n : Nat) :
    ∀ (cursor : Nat) (ds : List Int) (c2 : Nat),
      readLargeIDs data cursor n = some (ds, c2) → ∀ id ∈ ds, 0 ≤ id := by
  induction n with
  | zero =>
    intro cursor ds c2 h
    have h' : some (([] : List Int), cursor) = some (ds, c2) := h
    simp only [Option.some.injEq, Prod.mk.injEq] at h'
    intro id hid
    rw [← h'.1] at hid
    simp at hid
  | succ n ih =>
    intro cursor ds c2 h
    simp only [readLargeIDs] at h
    split at h
    · exact absurd h (by simp)
    · cases hrec : readLargeIDs data (cursor + 4) n with
      | none => rw [hrec] at h; simp at h
      | some p =>
        obtain ⟨ds0, c0⟩ := p
        rw [hrec] at h
        simp at h
        intro id hid
        rw [← h.1] at hid
        rcases List.mem_cons.mp hid with hh | hh
        · subst hh
          exact Int.ofNat_nonneg _
        · exact ih (cursor + 4) ds0 c0 hrec id hh

theorem mapSet_keys {P : Int → Prop} (acc : List (Int × List Nat)) (k : Int)
    (v : List Nat) (hacc : ∀ p ∈ acc, P p.1) (hk : P k) :
    ∀ p ∈ mapSet acc k v, P p.1 := by
  induction acc with
  | nil =>
    intro p hp
    simp [mapSet] at hp
    simp [hp, hk]
  | cons q rest ih =>
    obtain ⟨k2, v2⟩ := q
    intro p hp
    simp only [mapSet] at hp
    split at hp
    · rcases List.mem_cons.mp hp with hh | hh
      · subst hh
        exact hk
      · exact hacc p (List.mem_cons_of_mem _ hh)
    · rcases List.mem_cons.mp hp with hh | hh
      · subst hh
        exact hacc (k2, v2) (by simp)
      · exact ih (fun r hr => hacc r (by simp [hr])) p hh

theorem buildCols_keys {P : Int → Prop} (data : List Nat) (base : Nat)
    (pairs : List (Int × Nat)) :
    ∀ (prevOff : Nat) (acc cols : List (Int × List Nat)),
      (∀ p ∈ acc, P p.1) → (∀ p ∈ pairs, P p.1) →
      buildCols data base pairs prevOff acc = some cols → ∀ p ∈ cols, P p.1 := by
  induction pairs with
  | nil =>
    intro prevOff acc cols hacc _ h
    simp [buildCols] at h
    rw [← h]
    exact hacc
  | cons pr rest ih =>
    obtain ⟨id, endOff⟩ := pr
    intro prevOff acc cols hacc hpairs h
    simp only [buildCols] at h
    split at h
    · exact absurd h (by simp)
    · split at h
      · exact absurd h (by simp)
      · exact ih endOff _ cols
          (mapSet_keys acc id _ hacc (hpairs (id, endOff) (by simp)))
          (fun p hp => hpairs p (by simp [hp])) h

/-- Every column id a successful structural parse produces comes from the
narrow (one-byte) or wide (4-byte unsigned) id tables, hence is
non-negative. -/
theorem parseRowV2Structure_nonneg (data : List Nat) (cols : List (Int × List Nat))
    (h : parseRowV2Structure data = some cols) : ∀ p ∈ cols, 0 ≤ p.1 := by
  unfold parseRowV2Structure at h
  split at h
  · exact absurd h (by simp)
  · cases h1 : readSmallIDs data 6 (leUint16At data 2) with
    | none => rw [h1] at h; simp at h
    | some p1 =>
      obtain ⟨smalls, c1⟩ := p1
      rw [h1] at h
      simp only [Option.some_bind] at h
      cases h2 : readLargeIDs data c1 (leUint16At data 4) with
      | none => rw [h2] at h; simp at h
      | some p2 =>
        obtain ⟨larges, c2⟩ := p2
        rw [h2] at h
        simp only [Option.some_bind] at h
        cases h3 : readOffsets data c2 (smalls ++ larges).length with
        | none => rw [h3] at h; simp at h
        | some p3 =>
          obtain ⟨offs, c3⟩ := p3
          rw [h3] at h
          simp only [Option.some_bind] at h
          refine buildCols_keys data c3 ((smalls ++ larges).zip offs) 0 [] cols
            (by simp) ?_ h
          intro p hp
          obtain ⟨a, off⟩ := p
          have hmem := (List.of_mem_zip hp).1
          rcases List.mem_append.mp hmem with hh | hh
          · exact readSmallIDs_nonneg data _ 6 smalls c1 h1 a hh
          · exact readLargeIDs_nonneg data _ c1 larges c2 h2 a hh

/-- C10: the Columns map of `decodeRowV2` holds the `-1` sentinel iff the
structural parse failed — as the only entry, mapped to the whole input's hex
dump — and on success every entry is a table-derived column id mapped to the
classifier's display string, with the sentinel never present. -/
theorem decodeRowV2_sentinel_iff (jd : List Nat → Option String)
    (dataF dataS : List Nat) (cols : List (Int × List Nat))
    (hF : parseRowV2Structure dataF = none)
    (hS : parseRowV2Structure dataS = some cols) :
    (decodeRowV2 jd dataF).Columns = [(-1, hexEncode dataF)]
    ∧ (decodeRowV2 jd dataS).Columns = cols.map (fun p => (p.1, trySmartDecode jd p.2))
    ∧ (∀ p ∈ cols, 0 ≤ p.1)
    ∧ ∀ s : String, ((-1 : Int), s) ∉ (decodeRowV2 jd dataS).Columns := by
  have hpos := parseRowV2Structure_nonneg dataS cols hS
  refine ⟨by simp [decodeRowV2, hF], by simp [decodeRowV2, hS], hpos, ?_⟩
  intro s hmem
  simp only [decodeRowV2, hS, List.mem_map] at hmem
  obtain ⟨p, hp, heq⟩ := hmem
  have h1 : p.1 = -1 := by
    have := congrArg Prod.fst heq
    simpa using this
  have := hpos p hp
  omega

/-- Witness for C10: the malformed `{0x80, 0xFF}` and a well-formed one-column
row (`numSmall = 1`, id 2, end offset 1, value byte 65). -/
theorem decodeRowV2_sentinel_iff_witness :
    (decodeRowV2 (fun _ => none) [0x80, 0xFF]).Columns = [(-1, hexEncode [0x80, 0xFF])]
    ∧ (decodeRowV2 (fun _ => none) [0x80, 0, 1, 0, 0, 0, 2, 1, 0, 65]).Columns
      = [((2 : Int), [65])].map (fun p => (p.1, trySmartDecode (fun _ => none) p.2))
    ∧ (∀ p ∈ [((2 : Int), [65])], 0 ≤ p.1)
    ∧ ∀ s : String,
        ((-1 : Int), s) ∉ (decodeRowV2 (fun _ => none) [0x80, 0, 1, 0, 0, 0, 2, 1, 0, 65]).Columns :=
  decodeRowV2_sentinel_iff (fun _ => none) [0x80, 0xFF] [0x80, 0, 1, 0, 0, 0, 2, 1, 0, 65]
    [((2 : Int), [65])] (by decide) (by decide)

end TikvReader
